import Mathlib

/-!
Shallow embedding of the PHY6000 solar-irradiance analysis scripts
(`Calculate_KT.py` and `POA_analysis.py`): the clearness-index (KT)
pipelines, the extraterrestrial-radiation horizontal projection, the
mean-based resampling with bin-left labels, and the spectral
interpolation grid of `interpolate_wl_spectrum`.

Pandas/NumPy float semantics are modelled by `EF`: exact rationals
extended with the three non-finite IEEE values. The SciPy cubic-spline
evaluator `interp1d` (an external library call, not code of this
repository) is an abstract function parameter, so every theorem about
`interpolate_wl_spectrum` holds for an arbitrary spline evaluator.
-/

namespace PHY6000

/-- IEEE-style extended value: a finite rational, positive infinity,
negative infinity, or NaN. Models the float values flowing through the
pandas series of both scripts. -/
inductive EF where
  | nan : EF
  | inf : EF
  | ninf : EF
  | fin : ℚ → EF
deriving DecidableEq

/-- IEEE division on `EF`, as performed by `pandas` elementwise `/`
(`kt = df.global_h / etr_h_hor`, `Calculate_KT.py` line 51, and
`kt = irr_["ghi"] / irr_["eai"]`, `POA_analysis.py` line 102):
a positive finite value divided by zero gives `inf`, a negative one
gives `ninf`, and `0 / 0` gives `nan`. -/
def divEF : EF → EF → EF
  | EF.nan, _ => EF.nan
  | _, EF.nan => EF.nan
  | EF.fin a, EF.fin b =>
      if b = 0 then (if a = 0 then EF.nan else if 0 < a then EF.inf else EF.ninf)
      else EF.fin (a / b)
  | EF.inf, EF.inf => EF.nan
  | EF.inf, EF.ninf => EF.nan
  | EF.ninf, EF.inf => EF.nan
  | EF.ninf, EF.ninf => EF.nan
  | EF.inf, EF.fin b => if 0 ≤ b then EF.inf else EF.ninf
  | EF.ninf, EF.fin b => if 0 ≤ b then EF.ninf else EF.inf
  | EF.fin _, EF.inf => EF.fin 0
  | EF.fin _, EF.ninf => EF.fin 0

/-- IEEE strict greater-than on `EF` (any comparison with NaN is false),
as used by the boolean mask `kt > 1.3` in `Calculate_KT.py` line 53. -/
def gtEF : EF → EF → Bool
  | EF.nan, _ => false
  | _, EF.nan => false
  | EF.inf, EF.inf => false
  | EF.inf, _ => true
  | EF.ninf, _ => false
  | EF.fin _, EF.inf => false
  | EF.fin _, EF.ninf => true
  | EF.fin a, EF.fin b => decide (b < a)

/-- IEEE strict less-than on `EF`, as used by the boolean mask
`irr_["eai"] < 10` in `POA_analysis.py` line 105. -/
def ltEF (x y : EF) : Bool := gtEF y x

/-- IEEE less-or-equal on `EF` (false whenever either side is NaN);
used only to state invariants about the filtered KT series. -/
def leEF : EF → EF → Bool
  | EF.nan, _ => false
  | _, EF.nan => false
  | EF.ninf, _ => true
  | _, EF.ninf => false
  | EF.inf, EF.inf => true
  | EF.inf, EF.fin _ => false
  | EF.fin _, EF.inf => true
  | EF.fin a, EF.fin b => decide (a ≤ b)

/-- The plausibility filter of `Calculate_KT.py` line 53,
`kt[kt > 1.3] = np.nan`: any value strictly above the 1.3 ceiling is
replaced by NaN, every other value is left unchanged. -/
def ktFilter (x : EF) : EF := if gtEF x (EF.fin (13/10)) then EF.nan else x

/-- The clearness-index pipeline of `Calculate_KT.py` lines 51-53 at one
timestamp: divide the measured global-horizontal value by the hourly
horizontal extraterrestrial reference, then apply the plausibility
filter. No near-zero floor on the reference is applied in this script. -/
def kt_kts (g etr : EF) : EF := ktFilter (divEF g etr)

/-- The clearness-index pipeline of `POA_analysis.py` lines 102-105 at one
timestamp: divide GHI by the extraterrestrial horizontal reference
(`eai`), convert a positive-infinity quotient to NaN
(`kt[kt == np.inf] = np.nan`), then mask every timestamp whose reference
is below 10 W/m^2 (`kt[irr_["eai"] < 10] = np.nan`). -/
def kt_poa (ghi eai : EF) : EF :=
  let kt0 := divEF ghi eai
  let kt1 := if kt0 = EF.inf then EF.nan else kt0
  if ltEF eai (EF.fin 10) then EF.nan else kt1

/-- NumPy `np.linspace(a, b, n)` with its default inclusive endpoint:
`n` evenly spaced values from `a` to `b`, the i-th being
`a + (b - a) * i / (n - 1)`. -/
def linspace (a b : ℚ) (n : ℕ) : List ℚ :=
  (List.range n).map fun i : ℕ => a + (b - a) * (i : ℚ) / ((n - 1 : ℕ) : ℚ)

/-- `interpolate_wl_spectrum` of `POA_analysis.py` lines 146-170. The
input spectrum is the list of (wavelength, power) rows. `interp1d`
abstracts SciPy's cubic-spline constructor `interp1d(x, y, kind='cubic')`,
library code external to this repository: it receives the two ravelled
column arrays and returns the fitted function `f`. The body splits the
input into its two column arrays, builds the output grid
`np.linspace(start_wl, end_wl, end_wl - start_wl + 1)`, applies `f` to
the grid, and stacks grid and values into the returned frame. The
`step_wl` argument is accepted but never used, exactly as in the
source. -/
def interpolate_wl_spectrum (interp1d : List ℚ → List ℚ → ℚ → ℚ)
    (start_wl end_wl step_wl : ℤ) (input_spectrum : List (ℚ × ℚ)) : List (ℚ × ℚ) :=
  let x := input_spectrum.map Prod.fst
  let y := input_spectrum.map Prod.snd
  let int_x := linspace (start_wl : ℚ) (end_wl : ℚ) (end_wl - start_wl + 1).toNat
  let f := interp1d x y
  int_x.map fun xi => (xi, f xi)

/-- Fixed-size binning, modelling `resample(freq)` on a regular
timestamp grid where the target cadence spans `k` fine samples: split a
list into consecutive chunks of `k` (with a shorter trailing chunk when
`k` does not divide the length, as pandas produces a partial trailing
bin, and the degenerate whole-list chunk for `k = 0`). -/
def chunk {α : Type} : ℕ → List α → List (List α)
  | _, [] => []
  | 0, x :: xs => [x :: xs]
  | k + 1, x :: xs => (x :: xs).take (k + 1) :: chunk (k + 1) ((x :: xs).drop (k + 1))
termination_by k xs => xs.length
decreasing_by simp [List.length_drop]; omega

/-- Arithmetic mean of a list of values, as `.mean()` computes over one
resampling bin. -/
def mean (l : List ℚ) : ℚ := l.sum / l.length

/-- Value series of `resample(freq).mean()` (`Calculate_KT.py` line 44,
`POA_analysis.py` lines 114-117) on a regular index whose target
cadence spans `k` fine samples: the mean of each consecutive bin. -/
def resampleMean (k : ℕ) (xs : List ℚ) : List ℚ := (chunk k xs).map mean

/-- `resample(freq, label="left").mean()` on a regular (timestamp,
value) series whose target cadence spans `k` fine samples: each bin
yields its first (left-edge) timestamp paired with the mean of its
values. -/
def resampleLabelLeft (k : ℕ) (ts : List (ℚ × ℚ)) : List (ℚ × ℚ) :=
  (chunk k ts).map fun b => (b.headI.1, mean (b.map Prod.snd))

noncomputable section

/-- NumPy `np.radians`: degrees to radians. -/
def radians (d : ℝ) : ℝ := d * (Real.pi / 180)

/-- Raw horizontal projection of extraterrestrial radiation,
`np.cos(np.radians(zen)) * etr` (`Calculate_KT.py` line 40) and
`eai_global * np.cos(np.radians(solpos["apparent_zenith"]))`
(`POA_analysis.py` line 43). -/
def etr_hor_raw (zen etr : ℝ) : ℝ := Real.cos (radians zen) * etr

/-- The projection after the negative clamp `etr_hor[etr_hor < 0] = 0`
(`Calculate_KT.py` line 42, `POA_analysis.py` line 44): whenever the raw
projection is below zero it is replaced by exactly zero. -/
def etr_hor (zen etr : ℝ) : ℝ :=
  if etr_hor_raw zen etr < 0 then 0 else etr_hor_raw zen etr

end

/-- C3: the plausibility filter replaces any finite ratio strictly above
the 1.3 ceiling with NaN (it is never clipped to the ceiling) and leaves
any ratio at or below the ceiling unchanged; in particular 1.5 becomes
NaN and 0.8 is retained unchanged. -/
theorem ktFilter_ceiling (q : ℚ) :
    (13/10 < q → ktFilter (EF.fin q) = EF.nan) ∧
    (q ≤ 13/10 → ktFilter (EF.fin q) = EF.fin q) ∧
    ktFilter (EF.fin (3/2)) = EF.nan ∧
    ktFilter (EF.fin (4/5)) = EF.fin (4/5) := by
  refine ⟨fun h => ?_, fun h => ?_, by norm_num [ktFilter, gtEF], by norm_num [ktFilter, gtEF]⟩
  · simp [ktFilter, gtEF, h]
  · simp [ktFilter, gtEF, not_lt.mpr h]

/-- Witness for `ktFilter_ceiling` at the claim's own concrete inputs:
a ratio of 1.5 is above the ceiling and becomes NaN, a ratio of 0.8 is
at or below the ceiling and is kept unchanged. -/
theorem ktFilter_ceiling_witness :
    ktFilter (EF.fin (3/2)) = EF.nan ∧ ktFilter (EF.fin (4/5)) = EF.fin (4/5) :=
  ⟨(ktFilter_ceiling (3/2)).1 (by norm_num), ((ktFilter_ceiling (4/5)).2.1 (by norm_num))⟩

/-- C2: the projected extraterrestrial-horizontal series equals the
extraterrestrial radiation multiplied by the cosine of the apparent
zenith angle converted to radians, with any negative value replaced by
exactly zero, and is therefore everywhere non-negative. -/
theorem etr_hor_projection (zen etr : ℝ) :
    etr_hor zen etr
        = (if Real.cos (radians zen) * etr < 0 then 0 else Real.cos (radians zen) * etr) ∧
    0 ≤ etr_hor zen etr := by
  constructor
  · rfl
  · by_cases h : etr_hor_raw zen etr < 0
    · simp only [etr_hor, if_pos h]
      exact le_rfl
    · simp only [etr_hor, if_neg h]
      exact not_lt.mp h

/-- C1 counterexample: in the KT script (`Calculate_KT.py` lines 51-53)
there is no near-zero floor on the reference. With an hourly reference
of 5 W/m^2 (below the claimed 10 W/m^2 floor) and a measurement of
5 W/m^2, the clearness index comes out as the number 1, not as the
missing marker. -/
theorem kt_kts_no_floor_counterexample :
    kt_kts (EF.fin 5) (EF.fin 5) = EF.fin 1 ∧ EF.fin (1 : ℚ) ≠ EF.nan ∧ (5 : ℚ) < 10 := by
  refine ⟨?_, by simp, by norm_num⟩
  norm_num [kt_kts, divEF, ktFilter, gtEF]

/-- C1 amended: in the POA pipeline the ratio is computed pointwise, any
timestamp whose reference is below the 10 W/m^2 floor is missing (in
particular a zero reference), and any division producing positive
infinity is converted to missing. In the KT pipeline there is no floor:
positive infinity is removed only by the 1.3 ceiling filter, a zero
reference with non-negative measurement yields missing, but a positive
reference below the floor yields an ordinary number. -/
theorem kt_missing_amended :
    (∀ g eai : ℚ, eai < 10 → kt_poa (EF.fin g) (EF.fin eai) = EF.nan) ∧
    (∀ g : ℚ, kt_poa (EF.fin g) (EF.fin 0) = EF.nan) ∧
    (∀ g eai : EF, divEF g eai = EF.inf → kt_poa g eai = EF.nan) ∧
    (∀ g etr : EF, divEF g etr = EF.inf → kt_kts g etr = EF.nan) ∧
    (∀ g : ℚ, 0 ≤ g → kt_kts (EF.fin g) (EF.fin 0) = EF.nan) ∧
    kt_kts (EF.fin 5) (EF.fin 5) = EF.fin 1 := by
  refine ⟨fun g eai h => ?_, fun g => ?_, fun g eai h => ?_, fun g etr h => ?_,
    fun g h => ?_, ?_⟩
  · simp [kt_poa, ltEF, gtEF, h]
  · simp [kt_poa, ltEF, gtEF]
  · simp [kt_poa, h]
  · simp [kt_kts, h, ktFilter, gtEF]
  · rcases eq_or_lt_of_le h with h0 | hpos
    · simp [kt_kts, divEF, ← h0, ktFilter, gtEF]
    · simp [kt_kts, divEF, hpos.ne', hpos, ktFilter, gtEF]
  · norm_num [kt_kts, divEF, ktFilter, gtEF]

/-- Witness for `kt_missing_amended` at concrete inputs: in the POA
pipeline a reference of 5 W/m^2 (below the floor) makes the output
missing, and in the KT pipeline a zero reference with measurement 3
makes the output missing. -/
theorem kt_missing_amended_witness :
    kt_poa (EF.fin 500) (EF.fin 5) = EF.nan ∧ kt_kts (EF.fin 3) (EF.fin 0) = EF.nan :=
  ⟨kt_missing_amended.1 500 5 (by norm_num), kt_missing_amended.2.2.2.2.1 3 (by norm_num)⟩

/-- C10: after the plausibility filtering step of the KT script, every
value is either NaN or at most 1.3 in the IEEE order (negative infinity
included), and a positive-infinity ratio arising from a positive
measurement over a zero hourly reference never survives, because the
ceiling filter also replaces positive infinity with NaN. -/
theorem kt_kts_post_invariant :
    (∀ g etr : EF, kt_kts g etr = EF.nan ∨ leEF (kt_kts g etr) (EF.fin (13/10)) = true) ∧
    (∀ g : ℚ, 0 < g → kt_kts (EF.fin g) (EF.fin 0) = EF.nan) := by
  constructor
  · intro g etr
    rcases hx : divEF g etr with _ | _ | _ | q
    · left; simp [kt_kts, hx, ktFilter, gtEF]
    · left; simp [kt_kts, hx, ktFilter, gtEF]
    · right; simp [kt_kts, hx, ktFilter, gtEF, leEF]
    · by_cases hq : 13/10 < q
      · left; simp [kt_kts, hx, ktFilter, gtEF, hq]
      · right; simp [kt_kts, hx, ktFilter, gtEF, leEF, hq, not_lt.mp hq]
  · intro g hg
    simp [kt_kts, divEF, hg.ne', hg, ktFilter, gtEF]

/-- Witness for `kt_kts_post_invariant`: a measurement of 7 over a zero
hourly reference produces missing, not infinity. -/
theorem kt_kts_post_invariant_witness :
    kt_kts (EF.fin 7) (EF.fin 0) = EF.nan :=
  kt_kts_post_invariant.2 7 (by norm_num)

theorem linspace_length (a b : ℚ) (n : ℕ) : (linspace a b n).length = n := by
  simp only [linspace, List.length_map, List.length_range]

theorem linspace_getElem? (a b : ℚ) (n i : ℕ) (h : i < n) :
    (linspace a b n)[i]? = some (a + (b - a) * i / ((n - 1 : ℕ) : ℚ)) := by
  simp only [linspace, List.getElem?_map, List.getElem?_range, h, if_pos, Option.map_some]
  rfl

/-- On an integer range `[start_wl, end_wl]` with
`n = end_wl - start_wl + 1` points, the i-th grid point is exactly
`start_wl + i`. -/
theorem linspace_grid_getElem? (start_wl end_wl : ℤ) (hle : start_wl ≤ end_wl) (i : ℕ)
    (h : i < (end_wl - start_wl + 1).toNat) :
    (linspace (start_wl : ℚ) (end_wl : ℚ) (end_wl - start_wl + 1).toNat)[i]?
      = some ((start_wl : ℚ) + i) := by
  rw [linspace_getElem? _ _ _ _ h]
  by_cases hd : start_wl = end_wl
  · subst hd
    have hi : i = 0 := by omega
    subst hi
    simp
  · have hlt : start_wl < end_wl := lt_of_le_of_ne hle hd
    have hn1 : ((end_wl - start_wl + 1).toNat - 1 : ℕ) = (end_wl - start_wl).toNat := by omega
    have hcast : (((end_wl - start_wl).toNat : ℕ) : ℚ) = (end_wl : ℚ) - (start_wl : ℚ) := by
      have h0 : ((end_wl - start_wl).toNat : ℤ) = end_wl - start_wl :=
        Int.toNat_of_nonneg (by omega)
      have h1 := congrArg (fun z : ℤ => (z : ℚ)) h0
      push_cast at h1
      exact h1
    have hne : (end_wl : ℚ) - (start_wl : ℚ) ≠ 0 := by
      have hq : (start_wl : ℚ) < (end_wl : ℚ) := by exact_mod_cast hlt
      exact sub_ne_zero.mpr (ne_of_gt hq)
    rw [hn1, hcast, mul_comm ((end_wl : ℚ) - (start_wl : ℚ)) (i : ℚ), mul_div_assoc,
      div_self hne, mul_one]

/-- The wavelength column of the interpolation output is exactly the
linspace grid, for any abstract spline evaluator and any input. -/
theorem interp_wls (interp1d : List ℚ → List ℚ → ℚ → ℚ)
    (start_wl end_wl step_wl : ℤ) (input_spectrum : List (ℚ × ℚ)) :
    (interpolate_wl_spectrum interp1d start_wl end_wl step_wl input_spectrum).map Prod.fst
      = linspace (start_wl : ℚ) (end_wl : ℚ) (end_wl - start_wl + 1).toNat := by
  simp [interpolate_wl_spectrum, List.map_map, Function.comp_def]

theorem toNat_cast_q (z : ℤ) (hz : 0 ≤ z) : ((z.toNat : ℕ) : ℚ) = (z : ℚ) := by
  have h1 := congrArg (fun w : ℤ => (w : ℚ)) (Int.toNat_of_nonneg hz)
  push_cast at h1
  exact h1

/-- C4: for any input spectral curve with strictly increasing
wavelengths covering the requested range, interpolation with integer
bounds `start_wl ≤ end_wl` produces exactly `end_wl - start_wl + 1`
output points at 1-unit wavelength spacing whose first and last
wavelengths equal `start_wl` and `end_wl`. -/
theorem interp_grid_spec (interp1d : List ℚ → List ℚ → ℚ → ℚ)
    (start_wl end_wl step_wl : ℤ) (input_spectrum : List (ℚ × ℚ))
    (hle : start_wl ≤ end_wl)
    (hmono : input_spectrum.Chain' fun p q => p.1 < q.1)
    (hlo : ∃ p ∈ input_spectrum, p.1 ≤ (start_wl : ℚ))
    (hhi : ∃ p ∈ input_spectrum, (end_wl : ℚ) ≤ p.1) :
    (interpolate_wl_spectrum interp1d start_wl end_wl step_wl input_spectrum).length
        = (end_wl - start_wl + 1).toNat ∧
    ((interpolate_wl_spectrum interp1d start_wl end_wl step_wl input_spectrum).map
        Prod.fst)[0]? = some (start_wl : ℚ) ∧
    ((interpolate_wl_spectrum interp1d start_wl end_wl step_wl input_spectrum).map
        Prod.fst)[(end_wl - start_wl + 1).toNat - 1]? = some (end_wl : ℚ) ∧
    ∀ i x y,
      ((interpolate_wl_spectrum interp1d start_wl end_wl step_wl input_spectrum).map
          Prod.fst)[i]? = some x →
      ((interpolate_wl_spectrum interp1d start_wl end_wl step_wl input_spectrum).map
          Prod.fst)[i + 1]? = some y →
      y - x = 1 := by
  have hwls := interp_wls interp1d start_wl end_wl step_wl input_spectrum
  have hn : 0 < (end_wl - start_wl + 1).toNat := by omega
  refine ⟨?_, ?_, ?_, ?_⟩
  · simp [interpolate_wl_spectrum, linspace_length]
  · rw [hwls]
    simpa using linspace_grid_getElem? start_wl end_wl hle 0 hn
  · rw [hwls]
    have h3 := linspace_grid_getElem? start_wl end_wl hle
      ((end_wl - start_wl + 1).toNat - 1) (by omega)
    rw [h3]
    have hidx : ((end_wl - start_wl + 1).toNat - 1 : ℕ) = (end_wl - start_wl).toNat := by
      omega
    rw [hidx, toNat_cast_q _ (by omega)]
    congr 1
    push_cast
    ring
  · intro i x y hx hy
    rw [hwls] at hx hy
    have hilt : i + 1 < (end_wl - start_wl + 1).toNat := by
      by_contra hc
      push_neg at hc
      rw [List.getElem?_eq_none (by simpa [linspace_length] using hc)] at hy
      exact Option.noConfusion hy
    have hx' := linspace_grid_getElem? start_wl end_wl hle i (by omega)
    have hy' := linspace_grid_getElem? start_wl end_wl hle (i + 1) hilt
    rw [hx'] at hx
    rw [hy'] at hy
    have hxv := Option.some.inj hx
    have hyv := Option.some.inj hy
    rw [← hxv, ← hyv]
    push_cast
    ring

/-- Witness for `interp_grid_spec` at the claim's own concrete bounds
300 and 2000: exactly 1701 output points, first wavelength 300, last
wavelength 2000 (for an arbitrary concrete spline evaluator and a
strictly increasing four-point curve covering the range). -/
theorem interp_grid_spec_witness :
    (interpolate_wl_spectrum (fun _ _ _ => 0) 300 2000 1700
        [(250, 1), (1000, 2), (1500, 3), (2100, 4)]).length = 1701 ∧
    ((interpolate_wl_spectrum (fun _ _ _ => 0) 300 2000 1700
        [(250, 1), (1000, 2), (1500, 3), (2100, 4)]).map Prod.fst)[0]? = some 300 ∧
    ((interpolate_wl_spectrum (fun _ _ _ => 0) 300 2000 1700
        [(250, 1), (1000, 2), (1500, 3), (2100, 4)]).map Prod.fst)[1700]? = some 2000 := by
  have h := interp_grid_spec (fun _ _ _ => 0) 300 2000 1700
    [(250, 1), (1000, 2), (1500, 3), (2100, 4)]
    (by norm_num)
    (by simp [List.chain'_cons, List.chain'_singleton]; norm_num)
    ⟨(250, 1), by simp, by norm_num⟩
    ⟨(2100, 4), by simp, by norm_num⟩
  have e1 : ((2000 : ℤ) - 300 + 1).toNat = 1701 := by decide
  have e2 : ((2000 : ℤ) - 300 + 1).toNat - 1 = 1700 := by decide
  refine ⟨?_, ?_, ?_⟩
  · rw [h.1, e1]
  · exact_mod_cast h.2.1
  · have h3 := h.2.2.1
    rw [e2] at h3
    exact_mod_cast h3

/-- C5: when the requested range lies strictly outside the input
curve's wavelength domain, `interpolate_wl_spectrum` performs no
validation: it still returns the full grid, whose first entry pairs the
out-of-domain wavelength `start_wl` with whatever value the abstract
spline evaluator yields there, rather than reporting an error. -/
theorem interp_out_of_domain (interp1d : List ℚ → List ℚ → ℚ → ℚ)
    (start_wl end_wl step_wl : ℤ) (input_spectrum : List (ℚ × ℚ))
    (hle : start_wl ≤ end_wl)
    (hout : ∀ p ∈ input_spectrum, (start_wl : ℚ) < p.1) :
    ((start_wl : ℚ),
        interp1d (input_spectrum.map Prod.fst) (input_spectrum.map Prod.snd) (start_wl : ℚ))
      ∈ interpolate_wl_spectrum interp1d start_wl end_wl step_wl input_spectrum ∧
    (interpolate_wl_spectrum interp1d start_wl end_wl step_wl input_spectrum).length
      = (end_wl - start_wl + 1).toNat := by
  constructor
  · have h0 := linspace_grid_getElem? start_wl end_wl hle 0 (by omega)
    simp only [Nat.cast_zero, add_zero] at h0
    have hmem : (start_wl : ℚ)
        ∈ linspace (start_wl : ℚ) (end_wl : ℚ) (end_wl - start_wl + 1).toNat :=
      List.getElem?_mem h0
    have hmapped := List.mem_map_of_mem
      (f := fun xi => (xi,
        interp1d (input_spectrum.map Prod.fst) (input_spectrum.map Prod.snd) xi)) hmem
    simpa [interpolate_wl_spectrum] using hmapped
  · simp [interpolate_wl_spectrum, linspace_length]

/-- Witness for `interp_out_of_domain`: a request for [100, 105]
against a curve whose wavelengths all exceed 100 still yields a value
(here the constant-zero evaluator's output) at wavelength 100. -/
theorem interp_out_of_domain_witness :
    ((100 : ℚ), (0 : ℚ)) ∈ interpolate_wl_spectrum (fun _ _ _ => 0) 100 105 5
      [(200, 1), (300, 2), (400, 3), (500, 4)] := by
  have h := interp_out_of_domain (fun _ _ _ => (0 : ℚ)) 100 105 5
    [(200, 1), (300, 2), (400, 3), (500, 4)]
    (by norm_num)
    (by intro p hp; simp at hp; rcases hp with rfl | rfl | rfl | rfl <;> norm_num)
  simpa using h.1

/-- C6: when fewer than 4 sample points are supplied,
`interpolate_wl_spectrum` performs no validation of the sample count:
the body is executed unchanged (the output is the full grid mapped
through the abstract evaluator), with no error and no behaviour
distinct from the out-of-domain case. -/
theorem interp_no_count_check (interp1d : List ℚ → List ℚ → ℚ → ℚ)
    (start_wl end_wl step_wl : ℤ) (input_spectrum : List (ℚ × ℚ))
    (hshort : input_spectrum.length < 4) :
    interpolate_wl_spectrum interp1d start_wl end_wl step_wl input_spectrum
      = (linspace (start_wl : ℚ) (end_wl : ℚ) (end_wl - start_wl + 1).toNat).map
          (fun xi =>
            (xi, interp1d (input_spectrum.map Prod.fst) (input_spectrum.map Prod.snd) xi)) ∧
    (interpolate_wl_spectrum interp1d start_wl end_wl step_wl input_spectrum).length
      = (end_wl - start_wl + 1).toNat :=
  ⟨rfl, by simp [interpolate_wl_spectrum, linspace_length]⟩

/-- Witness for `interp_no_count_check`: a two-point input is processed
without any error, producing the full three-point grid for the range
[0, 2]. -/
theorem interp_no_count_check_witness :
    (interpolate_wl_spectrum (fun _ _ _ => (0 : ℚ)) 0 2 9 [(5, 1), (6, 2)]).length = 3 := by
  have h := interp_no_count_check (fun _ _ _ => (0 : ℚ)) 0 2 9 [(5, 1), (6, 2)] (by norm_num)
  have e : ((2 : ℤ) - 0 + 1).toNat = 3 := by decide
  rw [h.2, e]

/-- C9: two calls to `interpolate_wl_spectrum` that agree on
`start_wl`, `end_wl` and `input_spectrum` but differ in `step_wl`
return identical frames: the `step_wl` parameter never occurs in the
body, so the output grid spacing is determined solely by `start_wl` and
`end_wl`. -/
theorem interp_step_wl_irrelevant (interp1d : List ℚ → List ℚ → ℚ → ℚ)
    (start_wl end_wl s1 s2 : ℤ) (input_spectrum : List (ℚ × ℚ)) :
    interpolate_wl_spectrum interp1d start_wl end_wl s1 input_spectrum
      = interpolate_wl_spectrum interp1d start_wl end_wl s2 input_spectrum := rfl

theorem chunk_nil {α : Type} (k : ℕ) : chunk k ([] : List α) = [] := by
  cases k <;> simp [chunk]

theorem chunk_cons_eq {α : Type} (k : ℕ) (hk : 0 < k) (xs : List α) (hne : xs ≠ []) :
    chunk k xs = xs.take k :: chunk k (xs.drop k) := by
  cases k with
  | zero => exact absurd hk (lt_irrefl 0)
  | succ k =>
    cases xs with
    | nil => exact absurd rfl hne
    | cons x t => simp [chunk]

theorem chunk_flatten {α : Type} (k : ℕ) (xs : List α) : (chunk k xs).flatten = xs := by
  induction k, xs using chunk.induct with
  | case1 k => simp [chunk_nil]
  | case2 x xs => simp [chunk]
  | case3 k x xs ih =>
    rw [chunk_cons_eq (k + 1) (Nat.succ_pos k) (x :: xs) (by simp), List.flatten_cons, ih]
    exact List.take_append_drop _ _

theorem chunk_length_mul {α : Type} (k c : ℕ) (hk : 0 < k) (xs : List α)
    (h : xs.length = k * c) : (chunk k xs).length = c := by
  induction c generalizing xs with
  | zero =>
    have hx : xs = [] := List.length_eq_zero.mp (by simpa using h)
    subst hx
    simp [chunk_nil]
  | succ c ih =>
    rw [Nat.mul_succ] at h
    have hne : xs ≠ [] := by
      intro h0
      subst h0
      simp at h
      omega
    rw [chunk_cons_eq k hk xs hne, List.length_cons,
      ih (xs.drop k) (by rw [List.length_drop, h]; omega)]

theorem chunk_sizes {α : Type} (k c : ℕ) (hk : 0 < k) (xs : List α)
    (h : xs.length = k * c) : ∀ b ∈ chunk k xs, b.length = k := by
  induction c generalizing xs with
  | zero =>
    have hx : xs = [] := List.length_eq_zero.mp (by simpa using h)
    subst hx
    simp [chunk_nil]
  | succ c ih =>
    rw [Nat.mul_succ] at h
    have hne : xs ≠ [] := by
      intro h0
      subst h0
      simp at h
      omega
    rw [chunk_cons_eq k hk xs hne]
    intro b hb
    rcases List.mem_cons.mp hb with rfl | hb
    · rw [List.length_take, h]
      omega
    · exact ih (xs.drop k) (by rw [List.length_drop, h]; omega) b hb

theorem chunk_append {α : Type} (k c : ℕ) (hk : 0 < k) (ys zs : List α)
    (h : ys.length = k * c) : chunk k (ys ++ zs) = chunk k ys ++ chunk k zs := by
  induction c generalizing ys with
  | zero =>
    have hy : ys = [] := List.length_eq_zero.mp (by simpa using h)
    subst hy
    simp [chunk_nil]
  | succ c ih =>
    rw [Nat.mul_succ] at h
    have hne : ys ≠ [] := by
      intro h0
      subst h0
      simp at h
      omega
    have hne2 : ys ++ zs ≠ [] := fun h0 => hne (List.append_eq_nil.mp h0).1
    have hkle : k ≤ ys.length := by omega
    rw [chunk_cons_eq k hk (ys ++ zs) hne2, chunk_cons_eq k hk ys hne,
      List.take_append_of_le_length hkle, List.drop_append_of_le_length hkle,
      ih (ys.drop k) (by rw [List.length_drop, h]; omega), List.cons_append]

theorem chunk_of_length_eq {α : Type} (k : ℕ) (hk : 0 < k) (xs : List α)
    (h : xs.length = k) : chunk k xs = [xs] := by
  have hne : xs ≠ [] := by
    intro h0
    subst h0
    simp at h
    omega
  rw [chunk_cons_eq k hk xs hne, List.take_of_length_le (by omega),
    List.drop_eq_nil_of_le (by omega), chunk_nil]

theorem sum_map_div (L : List (List ℚ)) (k : ℚ) :
    (L.map fun b => b.sum / k).sum = (L.map List.sum).sum / k := by
  induction L with
  | nil => simp
  | cons b L ih => simp [ih, add_div]

theorem flatten_length_const (L : List (List ℚ)) (k : ℕ) (h : ∀ b ∈ L, b.length = k) :
    L.flatten.length = L.length * k := by
  induction L with
  | nil => simp
  | cons b L ih =>
    rw [List.flatten_cons, List.length_append,
      ih fun x hx => h x (List.mem_cons_of_mem _ hx),
      h b (List.mem_cons_self _ _), List.length_cons]
    ring

theorem mean_map_mean (L : List (List ℚ)) (k : ℕ) (hlen : ∀ b ∈ L, b.length = k) :
    mean (L.map mean) = mean L.flatten := by
  have hmap : L.map mean = L.map fun b => b.sum / (k : ℚ) := by
    apply List.map_congr_left
    intro b hb
    rw [mean, hlen b hb]
  rw [mean, hmap, sum_map_div, List.length_map, mean, List.sum_flatten,
    flatten_length_const L k hlen, div_div]
  congr 1
  push_cast
  ring

/-- C7: resampling by mean-based averaging to a coarser cadence (bins of
`m` fine samples) and then to an even coarser cadence (bins of `k`
intermediate bins) equals resampling the original series directly to
the final cadence (bins of `m * k` fine samples), exactly (hence within
any floating-point tolerance), whenever every bin is full so that all
intermediate bins carry equal weight. -/
theorem resampleMean_assoc (m k c : ℕ) (hm : 0 < m) (hk : 0 < k) (xs : List ℚ)
    (hlen : xs.length = m * k * c) :
    resampleMean k (resampleMean m xs) = resampleMean (m * k) xs := by
  induction c generalizing xs with
  | zero =>
    have hx : xs = [] := List.length_eq_zero.mp (by simpa using hlen)
    subst hx
    simp [resampleMean, chunk_nil]
  | succ c ih =>
    have hmk : 0 < m * k := Nat.mul_pos hm hk
    rw [Nat.mul_succ] at hlen
    obtain ⟨ys, zs, rfl, hys, hzs⟩ :
        ∃ ys zs, xs = ys ++ zs ∧ ys.length = m * k ∧ zs.length = m * k * c := by
      refine ⟨xs.take (m * k), xs.drop (m * k), (List.take_append_drop _ _).symm, ?_, ?_⟩
      · rw [List.length_take, hlen]
        omega
      · rw [List.length_drop, hlen]
        omega
    have hR : resampleMean (m * k) (ys ++ zs) = mean ys :: resampleMean (m * k) zs := by
      rw [resampleMean, chunk_append (m * k) 1 hmk ys zs (by rw [hys, Nat.mul_one]),
        chunk_of_length_eq (m * k) hmk ys hys]
      simp [resampleMean]
    have hInner : resampleMean m (ys ++ zs) = (chunk m ys).map mean ++ resampleMean m zs := by
      rw [resampleMean, chunk_append m k hm ys zs hys, List.map_append]
      rfl
    have hA : ((chunk m ys).map mean).length = k := by
      rw [List.length_map, chunk_length_mul m k hm ys hys]
    have hL : resampleMean k (resampleMean m (ys ++ zs))
        = mean ((chunk m ys).map mean) :: resampleMean k (resampleMean m zs) := by
      rw [hInner, resampleMean,
        chunk_append k 1 hk _ (resampleMean m zs) (by rw [hA, Nat.mul_one]),
        chunk_of_length_eq k hk _ hA]
      simp [resampleMean]
    rw [hL, hR, ih zs hzs]
    congr 1
    rw [mean_map_mean (chunk m ys) m (chunk_sizes m k hm ys hys), chunk_flatten]

/-- Witness for `resampleMean_assoc`: averaging [1, 2, 3, 4] in bins of
2 and averaging the two bin means again equals averaging all four
values at once. -/
theorem resampleMean_assoc_witness :
    resampleMean 2 (resampleMean 2 [1, 2, 3, 4]) = resampleMean 4 [1, 2, 3, 4] := by
  have h := resampleMean_assoc 2 2 1 (by norm_num) (by norm_num) [1, 2, 3, 4] (by simp)
  simpa using h

theorem chunk_getElem? {α : Type} (k : ℕ) (hk : 0 < k) (xs : List α) (j : ℕ)
    (hj : j < (chunk k xs).length) :
    (chunk k xs)[j]? = some ((xs.drop (j * k)).take k) := by
  induction j generalizing xs with
  | zero =>
    have hne : xs ≠ [] := by
      intro h0
      subst h0
      simp [chunk_nil] at hj
    rw [chunk_cons_eq k hk xs hne]
    simp
  | succ j ih =>
    have hne : xs ≠ [] := by
      intro h0
      subst h0
      simp [chunk_nil] at hj
    rw [chunk_cons_eq k hk xs hne] at hj ⊢
    rw [List.getElem?_cons_succ, ih (xs.drop k) (by simpa using hj), List.drop_drop]
    congr 3
    rw [Nat.succ_mul]
    omega

/-- C8: aggregating a regular fine-grained series (timestamp `t0 + i*d`
at index `i`) into bins of `k` samples yields, for every bin `j`, the
arithmetic mean of the `k` fine-grained values falling in the bin,
timestamped at the left edge `t0 + (j*k)*d` of the bin's time
interval. -/
theorem resampleLabelLeft_spec (k c : ℕ) (ts : List (ℚ × ℚ)) (t0 d : ℚ)
    (hk : 0 < k) (hlen : ts.length = k * c)
    (hgrid : ∀ i : Fin ts.length, (ts.get i).1 = t0 + ((i : ℕ) : ℚ) * d)
    (j : ℕ) (hj : j < (resampleLabelLeft k ts).length) :
    (resampleLabelLeft k ts)[j]?
      = some (t0 + ((j * k : ℕ) : ℚ) * d, mean (((ts.map Prod.snd).drop (j * k)).take k)) := by
  have hj' : j < (chunk k ts).length := by
    simpa [resampleLabelLeft] using hj
  have hjc : j < c := by
    rwa [chunk_length_mul k c hk ts hlen] at hj'
  have hjk : j * k < ts.length := by
    have h1 : (j + 1) * k ≤ c * k := Nat.mul_le_mul_right k hjc
    rw [Nat.succ_mul] at h1
    rw [hlen, Nat.mul_comm k c]
    omega
  rw [resampleLabelLeft, List.getElem?_map, chunk_getElem? k hk ts j hj', Option.map_some']
  have hdrop : ts.drop (j * k) = ts.get ⟨j * k, hjk⟩ :: ts.drop (j * k + 1) :=
    List.drop_eq_getElem_cons hjk
  obtain ⟨k1, rfl⟩ : ∃ k1, k = k1 + 1 := ⟨k - 1, by omega⟩
  rw [hdrop, List.take_succ_cons]
  congr 1
  refine Prod.ext ?_ ?_
  · show (ts.get ⟨j * (k1 + 1), hjk⟩).1 = t0 + ((j * (k1 + 1) : ℕ) : ℚ) * d
    exact hgrid ⟨j * (k1 + 1), hjk⟩
  · show mean ((ts.get ⟨j * (k1 + 1), hjk⟩ :: (ts.drop (j * (k1 + 1) + 1)).take k1).map
        Prod.snd) = mean (((ts.map Prod.snd).drop (j * (k1 + 1))).take (k1 + 1))
    rw [← List.take_succ_cons, ← hdrop, List.map_take, List.map_drop]

/-- Witness for `resampleLabelLeft_spec`: the four-sample minutely-style
series (0,10), (1,20), (2,30), (3,40) resampled in bins of two yields,
at bin 1, the left-edge timestamp 2 with the mean 35 of the values 30
and 40. -/
theorem resampleLabelLeft_spec_witness :
    (resampleLabelLeft 2 [(0, 10), (1, 20), (2, 30), (3, 40)])[1]? = some (2, 35) := by
  have hlen : ([(0, 10), (1, 20), (2, 30), (3, 40)] : List (ℚ × ℚ)).length = 2 * 2 := by
    simp
  have hj : 1 < (resampleLabelLeft 2 [(0, 10), (1, 20), (2, 30), (3, 40)]).length := by
    rw [resampleLabelLeft, List.length_map,
      chunk_length_mul 2 2 (by norm_num) _ hlen]
    omega
  have h := resampleLabelLeft_spec 2 2 [(0, 10), (1, 20), (2, 30), (3, 40)] 0 1
    (by norm_num) hlen
    (by intro i; fin_cases i <;> norm_num)
    1 hj
  rw [h]
  norm_num [mean]

end PHY6000
